import Mathlib

/-!
Verification development for `map-dump-organizer` (`src/process.py`), a script
that flattens a directory tree into category folders, deduplicating by content
hash, expanding archives and deleting known-useless file types under a step
budget.

The embedding is shallow: `pathlib.Path` values become `FPath` (a normalized
component list plus an absolute flag), the filesystem becomes an explicit
`FS` state (an association list from resolved absolute paths to file contents,
plus a list of existing directories and the process working directory), the
SHA-256 digest becomes an abstract `Content -> String` parameter, the random
UUID fragment becomes an explicit token parameter, and the shelled-out archive
backends become an explicit result parameter.  Each definition mirrors the
python function of the same name.
-/

set_option maxHeartbeats 1000000

/-- Bytes of a file, modelled as a string of characters. -/
abbrev Content := String

/-- A `pathlib`-style path: an absolute flag plus the normalized list of
components.  As in `pathlib`, a trailing slash is dropped so that
`Path("scm/") = Path("scm")`, and `Path(".")` has an empty component list. -/
structure FPath where
  abs : Bool
  parts : List String
deriving DecidableEq, Repr

/-- `p / n` for a single further component `n`. -/
def FPath.join (p : FPath) (n : String) : FPath :=
  ⟨p.abs, p.parts ++ [n]⟩

/-- `Path.name`: the final component (empty for `Path(".")` or `Path("/")`). -/
def FPath.name (p : FPath) : String :=
  (p.parts.getLast?).getD ""

/-- `Path.parent`: the path without its final component. -/
def FPath.parent (p : FPath) : FPath :=
  ⟨p.abs, p.parts.dropLast⟩

/-- `Path.with_name(n)`: replace the final component by `n`. -/
def FPath.withName (p : FPath) (n : String) : FPath :=
  ⟨p.abs, p.parts.dropLast ++ [n]⟩

/-- `Path.resolve()`: an absolute path stands as is; a relative path is
resolved against the process working directory. -/
def resolvePath (cwd : List String) (p : FPath) : List String :=
  if p.abs then p.parts else cwd ++ p.parts

/-- Index, counted from the head, of the first `'.'` in a character list
(`none` when there is no dot).  Applied to a reversed name this finds the
last dot of the name, as `str.rfind('.')` does. -/
def findDotRev : List Char → Option Nat
  | [] => none
  | c :: cs => if c = '.' then some 0 else (findDotRev cs).map (· + 1)

/-- `Path.suffix` on a file name, per `pathlib`: the part of the name from the
last dot on, provided that dot is neither the first nor the last character;
otherwise the empty string. -/
def suffixOf (name : String) : String :=
  let r := name.data.reverse
  match findDotRev r with
  | some k => if 0 < k ∧ k + 1 < r.length then String.mk ((r.take (k + 1)).reverse) else ""
  | none => ""

/-- `Path.stem` on a file name: the name with `suffixOf` removed. -/
def stemOf (name : String) : String :=
  String.mk (name.data.take (name.data.length - (suffixOf name).data.length))

/-- `str.lower()`, character by character. -/
def lowerStr (s : String) : String :=
  String.mk (s.data.map Char.toLower)

/-- Does the character list `hay` start with `ndl`? -/
def startsWithCh : List Char → List Char → Bool
  | _, [] => true
  | [], _ :: _ => false
  | c :: cs, d :: ds => c = d && startsWithCh cs ds

/-- Does the character list `hay` contain `ndl` as a contiguous run? -/
def containsCh : List Char → List Char → Bool
  | [], ndl => ndl.isEmpty
  | c :: cs, ndl => startsWithCh (c :: cs) ndl || containsCh cs ndl

/-- Python `ndl in hay` on strings (contiguous substring test). -/
def strContains (hay ndl : String) : Bool :=
  containsCh hay.data ndl.data

/-- Python `s.endswith(t)`. -/
def strEndsWith (s t : String) : Bool :=
  startsWithCh s.data.reverse t.data.reverse

/-- `EXTENSION_MAP` of `src/process.py` (lines 20-69): lowercase useful
extension to relative category directory. -/
def EXTENSION_MAP : List (String × FPath) := [
  ("scm", ⟨false, ["scm"]⟩),
  ("scx", ⟨false, ["scx"]⟩),
  ("w3m", ⟨false, ["w3m"]⟩),
  ("w3x", ⟨false, ["w3x"]⟩),
  ("pud", ⟨false, ["pud"]⟩),
  ("bac0", ⟨false, ["bac"]⟩),
  ("bac1", ⟨false, ["bac"]⟩),
  ("bac2", ⟨false, ["bac"]⟩),
  ("bac3", ⟨false, ["bac"]⟩),
  ("bac4", ⟨false, ["bac"]⟩),
  ("bac5", ⟨false, ["bac"]⟩),
  ("bac6", ⟨false, ["bac"]⟩),
  ("bac7", ⟨false, ["bac"]⟩),
  ("bac8", ⟨false, ["bac"]⟩),
  ("bac9", ⟨false, ["bac"]⟩),
  ("bac10", ⟨false, ["bac"]⟩),
  ("bac11", ⟨false, ["bac"]⟩),
  ("bac12", ⟨false, ["bac"]⟩),
  ("bac13", ⟨false, ["bac"]⟩),
  ("bac14", ⟨false, ["bac"]⟩),
  ("bac15", ⟨false, ["bac"]⟩),
  ("bac16", ⟨false, ["bac"]⟩),
  ("bac17", ⟨false, ["bac"]⟩),
  ("bac18", ⟨false, ["bac"]⟩),
  ("bac19", ⟨false, ["bac"]⟩),
  ("trg", ⟨false, ["trg"]⟩),
  ("gif", ⟨false, ["img"]⟩),
  ("jpg", ⟨false, ["img"]⟩),
  ("pcx", ⟨false, ["img"]⟩),
  ("png", ⟨false, ["img"]⟩),
  ("mp3", ⟨false, ["snd"]⟩),
  ("wav", ⟨false, ["snd"]⟩),
  ("htm", ⟨false, ["text"]⟩),
  ("lwp", ⟨false, ["text"]⟩),
  ("rtf", ⟨false, ["text"]⟩),
  ("txt", ⟨false, ["text"]⟩),
  ("txt~", ⟨false, ["text"]⟩),
  ("doc", ⟨false, ["text"]⟩),
  ("docx", ⟨false, ["text"]⟩),
  ("nfo", ⟨false, ["text"]⟩),
  ("pdf", ⟨false, ["text"]⟩),
  ("diz", ⟨false, ["text"]⟩),
  ("dds", ⟨false, ["dds"]⟩),
  ("bmp", ⟨false, ["bmp"]⟩),
  ("scn", ⟨false, ["scn"]⟩),
  ("tga", ⟨false, ["tga"]⟩),
  ("mpq", ⟨false, ["unknown-mpq"]⟩),
  ("autosave", ⟨false, ["unknown-mpq"]⟩)]

/-- `ARCHIVE_EXTENSIONS` (line 71). -/
def ARCHIVE_EXTENSIONS : List String := [".zip", ".7z", ".rar", ".001"]

/-- `SEVENZ_EXTENSIONS` (line 72). -/
def SEVENZ_EXTENSIONS : List String := [".7z", ".001"]

/-- `BLACKLISTED_DIRECTORIES = set(EXTENSION_MAP.values())` (line 74);
membership in the python set coincides with membership in the value list. -/
def BLACKLISTED_DIRECTORIES : List FPath :=
  EXTENSION_MAP.map (·.2)

/-- `DELETE_FILETYPES` (lines 76-117). -/
def DELETE_FILETYPES : List String := [
  ".1", ".bsp", ".db", ".exe", ".ex_", ".img", ".ini", ".ins", ".iss",
  ".lev", ".lft", ".lib", ".log", ".lpl", ".map", ".pkg", ".rep", ".reg",
  ".rmf", ".url", ".nif", ".dll", ".graal", ".sqlite", ".torrent", ".ttf",
  ".ico", ".esp", ".ocx", ".chk", ".unt", ".lst", ".ani", ".dat", ".chr",
  ".opt", ".snd", ".rsrc", ".bin", ".xml"]

/-- `USELESS_EXTENSIONS` (line 119). -/
def USELESS_EXTENSIONS : List String := [".bak", ".part"]

/-- Lookup in an association list of string keys (python `dict.get`). -/
def lookupExt : List (String × FPath) → String → Option FPath
  | [], _ => none
  | (k, v) :: rest, q => if k = q then some v else lookupExt rest q

/-- One iteration bound for the useless-suffix stripping loop: each strip
removes a nonempty suffix, so a fuel of the name's length is enough. -/
def strip_useless : Nat → String → String
  | 0, n => n
  | fuel + 1, n =>
    if lowerStr (suffixOf n) ∈ USELESS_EXTENSIONS then strip_useless fuel (stemOf n)
    else n

/-- `get_useful_extension` (lines 193-199): repeatedly strip suffixes that are
in `USELESS_EXTENSIONS` (case-insensitively), then return the remaining
suffix, without its dot, lowercased. -/
def get_useful_extension (file_name : String) : String :=
  let stripped := strip_useless file_name.data.length file_name
  lowerStr (String.mk ((suffixOf stripped).data.drop 1))

/-- The filesystem state: the process working directory, the existing regular
files keyed by resolved absolute path, and the existing directories. -/
structure FS where
  cwd : List String
  files : List (List String × Content)
  dirs : List (List String)
deriving DecidableEq, Repr

/-- Association-list lookup on resolved paths. -/
def lookupFs : List (List String × Content) → List String → Option Content
  | [], _ => none
  | (k, v) :: rest, q => if k = q then some v else lookupFs rest q

/-- Remove a key from the file table. -/
def eraseFs : List (List String × Content) → List String → List (List String × Content)
  | [], _ => []
  | (k, v) :: rest, q => if k = q then eraseFs rest q else (k, v) :: eraseFs rest q

/-- Bind a key in the file table, overwriting any previous binding. -/
def insertFs (fls : List (List String × Content)) (k : List String) (v : Content) :
    List (List String × Content) :=
  (k, v) :: eraseFs fls k

/-- Content of the file at resolved path `ap`, if any. -/
def FS.lookupFile (fs : FS) (ap : List String) : Option Content :=
  lookupFs fs.files ap

/-- `Path.unlink()` at a resolved path. -/
def FS.unlink (fs : FS) (ap : List String) : FS :=
  { fs with files := eraseFs fs.files ap }

/-- Create or overwrite a file at a resolved path. -/
def FS.writeFile (fs : FS) (ap : List String) (c : Content) : FS :=
  { fs with files := insertFs fs.files ap c }

/-- `shutil.move` of an existing file from one resolved path to another;
on POSIX the destination is silently replaced if it exists. -/
def FS.moveEntry (fs : FS) (src dst : List String) : FS :=
  match lookupFs fs.files src with
  | some c => { fs with files := insertFs (eraseFs fs.files src) dst c }
  | none => fs

/-- All nonempty prefixes of a component list, shortest first: the chain of
directories that `mkdir(parents=True)` creates. -/
def initsNE : List String → List (List String)
  | [] => []
  | x :: xs => [x] :: (initsNE xs).map (x :: ·)

/-- Record a directory if it is not already present. -/
def insertDir (ds : List (List String)) (d : List String) : List (List String) :=
  if d ∈ ds then ds else d :: ds

/-- `target.mkdir(parents=True, exist_ok=True)`: record the resolved target
directory and every ancestor. -/
def FS.mkdirP (fs : FS) (target : FPath) : FS :=
  { fs with dirs := (initsNE (resolvePath fs.cwd target)).foldl insertDir fs.dirs }

/-- Outcome of the placement resolver, one constructor per branch of
`move_file` (the python function returns `None` and logs; the spec names the
branches `Skipped`, `Deduplicated`, `Renamed`, `Moved`). -/
inductive MoveResult where
  | skipped
  | deduplicated
  | renamed
  | moved
deriving DecidableEq, Repr

/-- `move_file` (lines 138-165).  `hash` abstracts `compute_sha256` (the
digest of a file's bytes) and `tok` abstracts `uuid.uuid4().hex[:6]`.
Logging is omitted here as it does not touch the filesystem. -/
def move_file (hash : Content → String) (tok : String) (fs : FS)
    (file_path target_dir : FPath) : MoveResult × FS :=
  let fs1 := fs.mkdirP target_dir
  let destination := target_dir.join file_path.name
  let src := resolvePath fs.cwd file_path
  let dst := resolvePath fs.cwd destination
  if src = dst then (MoveResult.skipped, fs1)
  else
    match fs1.lookupFile dst with
    | some destContent =>
      let srcContent := (fs1.lookupFile src).getD ""
      if hash srcContent = hash destContent then
        (MoveResult.deduplicated, fs1.unlink src)
      else
        let newDestination :=
          destination.withName (stemOf destination.name ++ "_" ++ tok ++ suffixOf destination.name)
        (MoveResult.renamed, fs1.moveEntry src (resolvePath fs.cwd newDestination))
    | none => (MoveResult.moved, fs1.moveEntry src dst)

/-- Structured log lines emitted by `extract_archive`. -/
inductive LogMsg where
  | processing (p : FPath)
  | doneDeleting (p : FPath)
  | failed (p : FPath) (err : String)
deriving DecidableEq, Repr

/-- Backend choice of `extract_archive` line 173:
`any(archive_path.name.endswith(ext) for ext in SEVENZ_EXTENSIONS)`.
Note this is a case-sensitive test on the raw name. -/
def usesSevenz (name : String) : Bool :=
  SEVENZ_EXTENSIONS.any (fun ext => strEndsWith name ext)

/-- `extract_archive` (lines 167-180).  `tok` abstracts the random directory
suffix `str(uuid.uuid4())[:6]`; `backends b` is the result of the shelled-out
extraction tool (`b = true` for `7z`, `false` for `unar`): on success the list
of entries it writes into the target directory, on failure the raised error.
The function is total: a backend failure is logged and execution returns
normally. -/
def extract_archive (tok : String) (backends : Bool → Except String (List (String × Content)))
    (fs : FS) (archive_path target_dir_base : FPath) : FS × List LogMsg :=
  let target_dir := target_dir_base.parent.join (target_dir_base.name ++ "_" ++ tok)
  let fs1 := fs.mkdirP target_dir
  match backends (usesSevenz archive_path.name) with
  | Except.ok entries =>
    let fs2 := entries.foldl
      (fun a nc => a.writeFile (resolvePath a.cwd target_dir ++ [nc.1]) nc.2) fs1
    (fs2.unlink (resolvePath fs.cwd archive_path),
      [LogMsg.processing archive_path, LogMsg.doneDeleting archive_path])
  | Except.error e =>
    (fs1, [LogMsg.processing archive_path, LogMsg.failed archive_path e])

/-- The per-file decision of `process_directory` (lines 216-245), as the
spec's `Disposition`. -/
inductive Disposition where
  | extract (dest_base : FPath)
  | delete
  | sniffedDelete
  | sniffedMoveTo (cat : FPath)
  | skip
  | moveTo (cat : FPath)
deriving DecidableEq, Repr

/-- The classification logic inlined in the per-file loop of
`process_directory` (lines 216-245): archive check, delete-on-sight check,
useful-extension lookup, and the content-sniffing fallback on `metadata`
(the output of the `file` command) for extensionless files. -/
def classifyFile (file_path : FPath) (metadata : String) : Disposition :=
  if lowerStr (suffixOf file_path.name) ∈ ARCHIVE_EXTENSIONS then
    Disposition.extract (file_path.parent.join (stemOf file_path.name))
  else if lowerStr (suffixOf file_path.name) ∈ DELETE_FILETYPES then
    Disposition.delete
  else
    let ext := get_useful_extension file_path.name
    if ext = "" then
      if lowerStr metadata = "data" then Disposition.sniffedDelete
      else if strContains metadata "Apple DiskCopy" then Disposition.sniffedDelete
      else if strContains metadata "MoPaQ (MPQ) archive" then
        Disposition.sniffedMoveTo ⟨false, ["unknown-mpq"]⟩
      else if strContains (lowerStr metadata) "ascii text" then
        Disposition.sniffedMoveTo ⟨false, ["text"]⟩
      else Disposition.skip
    else
      Disposition.moveTo ((lookupExt EXTENSION_MAP ext).getD ⟨false, []⟩)

example : suffixOf "a.tar.gz" = ".gz" := by rfl
example : suffixOf ".bashrc" = "" := by rfl
example : suffixOf "a." = "" := by rfl
example : stemOf "a.txt" = "a" := by rfl
example : get_useful_extension "a.TXT.bak" = "txt" := by rfl
example : classifyFile ⟨false, ["a.scm"]⟩ "" = Disposition.moveTo ⟨false, ["scm"]⟩ := by rfl
example : classifyFile ⟨false, ["a.7Z"]⟩ "" = Disposition.extract ⟨false, ["a"]⟩ := by rfl
example : usesSevenz "a.7Z" = false := by rfl
example : usesSevenz "a.7z" = true := by rfl

/-! ### Association-list and mkdir lemmas -/

theorem lookupFs_erase_ne (fls : List (List String × Content)) (k q : List String)
    (h : q ≠ k) : lookupFs (eraseFs fls k) q = lookupFs fls q := by
  induction fls with
  | nil => rfl
  | cons p rest ih =>
    simp only [eraseFs]
    by_cases hk : p.1 = k
    · rw [if_pos hk, ih]
      show lookupFs rest q = lookupFs (p :: rest) q
      simp only [lookupFs]
      rw [if_neg (fun he => h (by rw [← he]; exact hk))]
    · rw [if_neg hk]
      show lookupFs ((p.1, p.2) :: eraseFs rest k) q = lookupFs (p :: rest) q
      simp only [lookupFs, ih]

theorem lookupFs_erase_self (fls : List (List String × Content)) (k : List String) :
    lookupFs (eraseFs fls k) k = none := by
  induction fls with
  | nil => rfl
  | cons p rest ih =>
    by_cases hk : p.1 = k <;> simp [eraseFs, lookupFs, hk, ih]

theorem lookupFs_insert_self (fls : List (List String × Content)) (k : List String)
    (v : Content) : lookupFs (insertFs fls k v) k = some v := by
  simp [insertFs, lookupFs]

theorem lookupFs_insert_ne (fls : List (List String × Content)) (k q : List String)
    (v : Content) (h : q ≠ k) : lookupFs (insertFs fls k v) q = lookupFs fls q := by
  simp only [insertFs, lookupFs]
  rw [if_neg (fun he => h he.symm), lookupFs_erase_ne fls k q h]

theorem mkdirP_lookupFile (fs : FS) (t : FPath) (ap : List String) :
    (fs.mkdirP t).lookupFile ap = fs.lookupFile ap := rfl

theorem mkdirP_files (fs : FS) (t : FPath) : (fs.mkdirP t).files = fs.files := rfl

theorem mkdirP_cwd (fs : FS) (t : FPath) : (fs.mkdirP t).cwd = fs.cwd := rfl

theorem mem_foldl_insertDir_acc (l : List (List String)) (acc : List (List String))
    (x : List String) (h : x ∈ acc) : x ∈ l.foldl insertDir acc := by
  induction l generalizing acc with
  | nil => exact h
  | cons y ys ih =>
    apply ih
    by_cases hy : y ∈ acc <;> simp [insertDir, hy, h]

theorem mem_foldl_insertDir (l : List (List String)) (acc : List (List String))
    (x : List String) (h : x ∈ l) : x ∈ l.foldl insertDir acc := by
  induction l generalizing acc with
  | nil => cases h
  | cons y ys ih =>
    simp only [List.foldl_cons]
    rcases List.mem_cons.mp h with h | h
    · subst h
      apply mem_foldl_insertDir_acc
      by_cases hy : x ∈ acc
      · simp [insertDir, hy]
      · simp [insertDir, hy]
    · exact ih _ h

theorem foldl_insertDir_absorb (l : List (List String)) (acc : List (List String))
    (h : ∀ x ∈ l, x ∈ acc) : l.foldl insertDir acc = acc := by
  induction l with
  | nil => rfl
  | cons y ys ih =>
    have hy : y ∈ acc := h y (by simp)
    simp only [List.foldl_cons, insertDir, if_pos hy]
    exact ih (fun x hx => h x (by simp [hx]))

theorem initsNE_self (l : List String) (h : l ≠ []) : l ∈ initsNE l := by
  induction l with
  | nil => exact absurd rfl h
  | cons x xs ih =>
    cases xs with
    | nil => simp [initsNE]
    | cons y ys =>
      have hmem : y :: ys ∈ initsNE (y :: ys) := ih (by simp)
      show x :: y :: ys ∈ [x] :: (initsNE (y :: ys)).map (x :: ·)
      exact List.mem_cons.mpr (Or.inr (List.mem_map.mpr ⟨y :: ys, hmem, rfl⟩))

/-! ### Path lemmas -/

theorem FPath.name_join (p : FPath) (n : String) : (p.join n).name = n := by
  simp [FPath.join, FPath.name]

theorem FPath.withName_join (p : FPath) (n m : String) :
    (p.join n).withName m = p.join m := by
  simp [FPath.join, FPath.withName]

theorem resolvePath_join (cwd : List String) (p : FPath) (n : String) :
    resolvePath cwd (p.join n) = resolvePath cwd p ++ [n] := by
  by_cases h : p.abs <;> simp [resolvePath, FPath.join, h]

/-! ### Name-string length lemmas: the renamed collision target differs from
the original name because it is strictly longer. -/

theorem suffixOf_data_length_le (n : String) :
    (suffixOf n).data.length ≤ n.data.length := by
  simp only [suffixOf]
  split
  · split
    · simp [List.length_take]
    · simp
  · simp

theorem stem_add_suffix_length (n : String) :
    (stemOf n).data.length + (suffixOf n).data.length = n.data.length := by
  have hle := suffixOf_data_length_le n
  have : (stemOf n).data.length = n.data.length - (suffixOf n).data.length := by
    simp [stemOf, List.length_take]
  omega

theorem newName_ne (n tok : String) : stemOf n ++ "_" ++ tok ++ suffixOf n ≠ n := by
  intro h
  have hlen := congrArg (fun s : String => s.data.length) h
  simp only [String.data_append, List.length_append, List.length_singleton] at hlen
  have hsum := stem_add_suffix_length n
  omega

/-! ### Branch characterizations of `move_file` -/

theorem moveEntry_dirs (fs : FS) (a b : List String) :
    (fs.moveEntry a b).dirs = fs.dirs := by
  unfold FS.moveEntry
  split <;> rfl

theorem moveEntry_cwd (fs : FS) (a b : List String) :
    (fs.moveEntry a b).cwd = fs.cwd := by
  unfold FS.moveEntry
  split <;> rfl

theorem moveEntry_lookup_dst (fs : FS) (src dst : List String) (c : Content)
    (h : fs.lookupFile src = some c) : (fs.moveEntry src dst).lookupFile dst = some c := by
  unfold FS.moveEntry
  rw [show lookupFs fs.files src = some c from h]
  exact lookupFs_insert_self _ _ _

theorem moveEntry_lookup_src (fs : FS) (src dst : List String) (c : Content)
    (h : fs.lookupFile src = some c) (hne : src ≠ dst) :
    (fs.moveEntry src dst).lookupFile src = none := by
  unfold FS.moveEntry
  rw [show lookupFs fs.files src = some c from h]
  show lookupFs (insertFs (eraseFs fs.files src) dst c) src = none
  rw [lookupFs_insert_ne _ _ _ _ hne, lookupFs_erase_self]

theorem moveEntry_lookup_other (fs : FS) (src dst q : List String) (c : Content)
    (h : fs.lookupFile src = some c) (h1 : q ≠ dst) (h2 : q ≠ src) :
    (fs.moveEntry src dst).lookupFile q = fs.lookupFile q := by
  unfold FS.moveEntry
  rw [show lookupFs fs.files src = some c from h]
  show lookupFs (insertFs (eraseFs fs.files src) dst c) q = _
  rw [lookupFs_insert_ne _ _ _ _ h1, lookupFs_erase_ne _ _ _ h2]
  rfl

theorem unlink_lookup_self (fs : FS) (ap : List String) :
    (fs.unlink ap).lookupFile ap = none :=
  lookupFs_erase_self _ _

theorem unlink_lookup_ne (fs : FS) (ap q : List String) (h : q ≠ ap) :
    (fs.unlink ap).lookupFile q = fs.lookupFile q :=
  lookupFs_erase_ne _ _ _ h

theorem move_file_skipped_branch (hash : Content → String) (tok : String) (fs : FS)
    (fp target : FPath)
    (h : resolvePath fs.cwd fp = resolvePath fs.cwd target ++ [fp.name]) :
    move_file hash tok fs fp target = (MoveResult.skipped, fs.mkdirP target) := by
  simp only [move_file, resolvePath_join]
  rw [if_pos h]

theorem move_file_moved_branch (hash : Content → String) (tok : String) (fs : FS)
    (fp target : FPath)
    (hne : resolvePath fs.cwd fp ≠ resolvePath fs.cwd target ++ [fp.name])
    (hdst : fs.lookupFile (resolvePath fs.cwd target ++ [fp.name]) = none) :
    move_file hash tok fs fp target =
      (MoveResult.moved,
        (fs.mkdirP target).moveEntry (resolvePath fs.cwd fp)
          (resolvePath fs.cwd target ++ [fp.name])) := by
  simp only [move_file, resolvePath_join]
  rw [if_neg hne, mkdirP_lookupFile, hdst]

theorem move_file_dedup_branch (hash : Content → String) (tok : String) (fs : FS)
    (fp target : FPath) (csrc cdst : Content)
    (hne : resolvePath fs.cwd fp ≠ resolvePath fs.cwd target ++ [fp.name])
    (hsrc : fs.lookupFile (resolvePath fs.cwd fp) = some csrc)
    (hdst : fs.lookupFile (resolvePath fs.cwd target ++ [fp.name]) = some cdst)
    (hhash : hash csrc = hash cdst) :
    move_file hash tok fs fp target =
      (MoveResult.deduplicated, (fs.mkdirP target).unlink (resolvePath fs.cwd fp)) := by
  simp only [move_file, resolvePath_join]
  rw [if_neg hne, mkdirP_lookupFile, hdst, mkdirP_lookupFile, hsrc]
  simp only [Option.getD_some]
  rw [if_pos hhash]

theorem move_file_renamed_branch (hash : Content → String) (tok : String) (fs : FS)
    (fp target : FPath) (csrc cdst : Content)
    (hne : resolvePath fs.cwd fp ≠ resolvePath fs.cwd target ++ [fp.name])
    (hsrc : fs.lookupFile (resolvePath fs.cwd fp) = some csrc)
    (hdst : fs.lookupFile (resolvePath fs.cwd target ++ [fp.name]) = some cdst)
    (hhash : ¬hash csrc = hash cdst) :
    move_file hash tok fs fp target =
      (MoveResult.renamed,
        (fs.mkdirP target).moveEntry (resolvePath fs.cwd fp)
          (resolvePath fs.cwd target ++ [stemOf fp.name ++ "_" ++ tok ++ suffixOf fp.name])) := by
  simp only [move_file, FPath.name_join, FPath.withName_join, resolvePath_join]
  rw [if_neg hne, mkdirP_lookupFile, hdst, mkdirP_lookupFile, hsrc]
  simp only [Option.getD_some]
  rw [if_neg hhash]

/-- C1: when two files with differing content collide on the same destination
name, `move_file` takes the rename branch: the existing destination file is
left unchanged, the source survives at a new name formed by inserting the
random token between the destination name's stem and its extension, and the
two surviving names are distinct.  The digest is assumed collision-free
(injective), matching the spec's treatment of the fingerprint as a content
equality check. -/
theorem move_file_no_overwrite (hash : Content → String) (tok : String) (fs : FS)
    (fp target : FPath) (csrc cdst : Content)
    (hinj : Function.Injective hash)
    (hne : resolvePath fs.cwd fp ≠ resolvePath fs.cwd target ++ [fp.name])
    (hsrc : fs.lookupFile (resolvePath fs.cwd fp) = some csrc)
    (hdst : fs.lookupFile (resolvePath fs.cwd target ++ [fp.name]) = some cdst)
    (hdiff : csrc ≠ cdst) :
    (move_file hash tok fs fp target).1 = MoveResult.renamed ∧
    (move_file hash tok fs fp target).2.lookupFile
      (resolvePath fs.cwd target ++ [fp.name]) = some cdst ∧
    (move_file hash tok fs fp target).2.lookupFile
      (resolvePath fs.cwd target ++ [stemOf fp.name ++ "_" ++ tok ++ suffixOf fp.name]) = some csrc ∧
    resolvePath fs.cwd target ++ [stemOf fp.name ++ "_" ++ tok ++ suffixOf fp.name] ≠
      resolvePath fs.cwd target ++ [fp.name] := by
  have hnd : resolvePath fs.cwd target ++ [stemOf fp.name ++ "_" ++ tok ++ suffixOf fp.name] ≠
      resolvePath fs.cwd target ++ [fp.name] := by
    intro h
    have h2 := List.append_cancel_left h
    simp only [List.cons.injEq, and_true] at h2
    exact newName_ne fp.name tok h2
  rw [move_file_renamed_branch hash tok fs fp target csrc cdst hne hsrc hdst
    (fun he => hdiff (hinj he))]
  refine ⟨rfl, ?_, ?_, hnd⟩
  · rw [moveEntry_lookup_other _ _ _ _ csrc (by rw [mkdirP_lookupFile]; exact hsrc)
      hnd.symm (Ne.symm hne), mkdirP_lookupFile]
    exact hdst
  · exact moveEntry_lookup_dst _ _ _ csrc (by rw [mkdirP_lookupFile]; exact hsrc)

/-- Witness for C1 at a concrete state: `/d/a.txt` (content AAA) collides with
`/t/a.txt` (content BBB); the source is renamed to `/t/a_ab12cd.txt` and both
contents survive. -/
theorem move_file_no_overwrite_witness :
    (move_file (fun c => c) "ab12cd"
      ⟨[], [(["d", "a.txt"], "AAA"), (["t", "a.txt"], "BBB")], []⟩
      ⟨true, ["d", "a.txt"]⟩ ⟨true, ["t"]⟩).1 = MoveResult.renamed ∧
    (move_file (fun c => c) "ab12cd"
      ⟨[], [(["d", "a.txt"], "AAA"), (["t", "a.txt"], "BBB")], []⟩
      ⟨true, ["d", "a.txt"]⟩ ⟨true, ["t"]⟩).2.lookupFile ["t", "a.txt"] = some "BBB" ∧
    (move_file (fun c => c) "ab12cd"
      ⟨[], [(["d", "a.txt"], "AAA"), (["t", "a.txt"], "BBB")], []⟩
      ⟨true, ["d", "a.txt"]⟩ ⟨true, ["t"]⟩).2.lookupFile ["t", "a_ab12cd.txt"] = some "AAA" ∧
    (["t", "a_ab12cd.txt"] : List String) ≠ ["t", "a.txt"] := by
  exact move_file_no_overwrite (fun c => c) "ab12cd"
    ⟨[], [(["d", "a.txt"], "AAA"), (["t", "a.txt"], "BBB")], []⟩
    ⟨true, ["d", "a.txt"]⟩ ⟨true, ["t"]⟩ "AAA" "BBB" (fun _ _ h => h)
    (by decide) (by rfl) (by rfl) (by decide)

/-- C4: when the existing destination file's fingerprint equals the source's
fingerprint, `move_file` takes the deduplication branch: the source is
deleted and the destination is unchanged, so exactly one copy survives under
that name. -/
theorem move_file_dedup (hash : Content → String) (tok : String) (fs : FS)
    (fp target : FPath) (csrc cdst : Content)
    (hne : resolvePath fs.cwd fp ≠ resolvePath fs.cwd target ++ [fp.name])
    (hsrc : fs.lookupFile (resolvePath fs.cwd fp) = some csrc)
    (hdst : fs.lookupFile (resolvePath fs.cwd target ++ [fp.name]) = some cdst)
    (hhash : hash csrc = hash cdst) :
    (move_file hash tok fs fp target).1 = MoveResult.deduplicated ∧
    (move_file hash tok fs fp target).2.lookupFile
      (resolvePath fs.cwd target ++ [fp.name]) = some cdst ∧
    (move_file hash tok fs fp target).2.lookupFile (resolvePath fs.cwd fp) = none := by
  rw [move_file_dedup_branch hash tok fs fp target csrc cdst hne hsrc hdst hhash]
  refine ⟨rfl, ?_, ?_⟩
  · rw [unlink_lookup_ne _ _ _ (Ne.symm hne), mkdirP_lookupFile]
    exact hdst
  · exact unlink_lookup_self _ _

/-- Witness for C4 at a concrete state: `/d/b.txt` and `/t/b.txt` hold the
same bytes; the source is deleted, the destination kept. -/
theorem move_file_dedup_witness :
    (move_file (fun c => c) "ab12cd"
      ⟨[], [(["d", "b.txt"], "SAME"), (["t", "b.txt"], "SAME")], []⟩
      ⟨true, ["d", "b.txt"]⟩ ⟨true, ["t"]⟩).1 = MoveResult.deduplicated ∧
    (move_file (fun c => c) "ab12cd"
      ⟨[], [(["d", "b.txt"], "SAME"), (["t", "b.txt"], "SAME")], []⟩
      ⟨true, ["d", "b.txt"]⟩ ⟨true, ["t"]⟩).2.lookupFile ["t", "b.txt"] = some "SAME" ∧
    (move_file (fun c => c) "ab12cd"
      ⟨[], [(["d", "b.txt"], "SAME"), (["t", "b.txt"], "SAME")], []⟩
      ⟨true, ["d", "b.txt"]⟩ ⟨true, ["t"]⟩).2.lookupFile ["d", "b.txt"] = none := by
  exact move_file_dedup (fun c => c) "ab12cd"
    ⟨[], [(["d", "b.txt"], "SAME"), (["t", "b.txt"], "SAME")], []⟩
    ⟨true, ["d", "b.txt"]⟩ ⟨true, ["t"]⟩ "SAME" "SAME"
    (by decide) (by rfl) (by rfl) rfl

/-- C8: placement is idempotent.  After `move_file` has placed a file at its
destination (the plain move branch), invoking `move_file` again on the placed
file with the same target directory resolves source and destination to the
same file, returns the skipped branch, and leaves the filesystem state
exactly as it was. -/
theorem move_file_idempotent (hash : Content → String) (tok tok2 : String) (fs : FS)
    (fp target : FPath) (c : Content)
    (hsrc : fs.lookupFile (resolvePath fs.cwd fp) = some c)
    (hne : resolvePath fs.cwd fp ≠ resolvePath fs.cwd target ++ [fp.name])
    (hdst : fs.lookupFile (resolvePath fs.cwd target ++ [fp.name]) = none) :
    (move_file hash tok fs fp target).1 = MoveResult.moved ∧
    (move_file hash tok2 (move_file hash tok fs fp target).2
      (target.join fp.name) target).1 = MoveResult.skipped ∧
    (move_file hash tok2 (move_file hash tok fs fp target).2
      (target.join fp.name) target).2 = (move_file hash tok fs fp target).2 := by
  rw [move_file_moved_branch hash tok fs fp target hne hdst]
  set X := (fs.mkdirP target).moveEntry (resolvePath fs.cwd fp)
    (resolvePath fs.cwd target ++ [fp.name]) with hX
  have hXcwd : X.cwd = fs.cwd := by
    rw [hX, moveEntry_cwd, mkdirP_cwd]
  have hXdirs : X.dirs = (initsNE (resolvePath fs.cwd target)).foldl insertDir fs.dirs := by
    rw [hX, moveEntry_dirs]
    rfl
  have hskip : resolvePath X.cwd (target.join fp.name) =
      resolvePath X.cwd target ++ [(target.join fp.name).name] := by
    rw [FPath.name_join, resolvePath_join]
  have habs : (initsNE (resolvePath fs.cwd target)).foldl insertDir X.dirs = X.dirs :=
    foldl_insertDir_absorb _ _ (fun x hx => by
      rw [hXdirs]
      exact mem_foldl_insertDir _ _ _ hx)
  have hmk : X.mkdirP target = X := by
    unfold FS.mkdirP
    rw [hXcwd, habs, ← hXcwd]
  rw [move_file_skipped_branch hash tok2 X (target.join fp.name) target hskip, hmk]
  exact ⟨rfl, rfl, rfl⟩

/-- Witness for C8 at a concrete state: `/a.txt` is first moved to
`/t/a.txt`; re-running placement on `/t/a.txt` with target `/t` is skipped
and changes nothing. -/
theorem move_file_idempotent_witness :
    (move_file (fun c => c) "t1" ⟨[], [(["a.txt"], "x")], []⟩
      ⟨true, ["a.txt"]⟩ ⟨true, ["t"]⟩).1 = MoveResult.moved ∧
    (move_file (fun c => c) "t2" (move_file (fun c => c) "t1" ⟨[], [(["a.txt"], "x")], []⟩
      ⟨true, ["a.txt"]⟩ ⟨true, ["t"]⟩).2
      (FPath.join ⟨true, ["t"]⟩ (FPath.name ⟨true, ["a.txt"]⟩)) ⟨true, ["t"]⟩).1 =
      MoveResult.skipped ∧
    (move_file (fun c => c) "t2" (move_file (fun c => c) "t1" ⟨[], [(["a.txt"], "x")], []⟩
      ⟨true, ["a.txt"]⟩ ⟨true, ["t"]⟩).2
      (FPath.join ⟨true, ["t"]⟩ (FPath.name ⟨true, ["a.txt"]⟩)) ⟨true, ["t"]⟩).2 =
      (move_file (fun c => c) "t1" ⟨[], [(["a.txt"], "x")], []⟩
      ⟨true, ["a.txt"]⟩ ⟨true, ["t"]⟩).2 := by
  exact move_file_idempotent (fun c => c) "t1" "t2" ⟨[], [(["a.txt"], "x")], []⟩
    ⟨true, ["a.txt"]⟩ ⟨true, ["t"]⟩ "x" (by rfl) (by decide) (by rfl)

/-! ### Facts about the category table values -/

theorem lookupExt_mem_values (l : List (String × FPath)) (e : String) (c : FPath)
    (h : lookupExt l e = some c) : c ∈ l.map (·.2) := by
  induction l with
  | nil => cases h
  | cons p rest ih =>
    simp only [lookupExt] at h
    by_cases hk : p.1 = e
    · rw [if_pos hk] at h
      injection h with h
      simp [← h]
    · rw [if_neg hk] at h
      simp [ih h]

theorem EXTENSION_MAP_values_shape :
    ∀ c ∈ EXTENSION_MAP.map (·.2), c.abs = false ∧ c.parts ≠ [] := by decide

/-- C3 counterexample: with the working directory at `/home` and the walk
root `sub` (so the processed file is `/home/sub/a.scm`), the `scm` category
directory is created at `/home/scm` — not under the walk root `/home/sub` —
and the file is moved there.  This refutes the claim that the category
subdirectory is created as a subdirectory of the directory passed via
`--directory`. -/
theorem move_file_category_dir_counterexample :
    classifyFile ⟨false, ["sub", "a.scm"]⟩ "" = Disposition.moveTo ⟨false, ["scm"]⟩ ∧
    (move_file (fun c => c) "ab12cd" ⟨["home"], [(["home", "sub", "a.scm"], "X")], []⟩
      ⟨false, ["sub", "a.scm"]⟩ ⟨false, ["scm"]⟩).1 = MoveResult.moved ∧
    (move_file (fun c => c) "ab12cd" ⟨["home"], [(["home", "sub", "a.scm"], "X")], []⟩
      ⟨false, ["sub", "a.scm"]⟩ ⟨false, ["scm"]⟩).2.lookupFile
      ["home", "scm", "a.scm"] = some "X" ∧
    (move_file (fun c => c) "ab12cd" ⟨["home"], [(["home", "sub", "a.scm"], "X")], []⟩
      ⟨false, ["sub", "a.scm"]⟩ ⟨false, ["scm"]⟩).2.lookupFile
      ["home", "sub", "a.scm"] = none ∧
    ["home", "scm"] ∈ (move_file (fun c => c) "ab12cd"
      ⟨["home"], [(["home", "sub", "a.scm"], "X")], []⟩
      ⟨false, ["sub", "a.scm"]⟩ ⟨false, ["scm"]⟩).2.dirs ∧
    List.take 2 ["home", "scm", "a.scm"] ≠ ["home", "sub"] := by
  refine ⟨rfl, rfl, rfl, rfl, ?_, by decide⟩
  decide

/-- C3 amended: for a file whose useful extension is found in the category
table, the category subdirectory is created on demand *relative to the
process working directory* (not the walk root), and the file is moved into
that CWD-relative directory; this coincides with the walk root only when
`--directory` is the working directory itself. -/
theorem move_file_category_under_cwd (hash : Content → String) (tok : String) (fs : FS)
    (fp : FPath) (metadata : String) (cat : FPath) (c : Content)
    (hclass : classifyFile fp metadata = Disposition.moveTo cat)
    (hlk : lookupExt EXTENSION_MAP (get_useful_extension fp.name) = some cat)
    (hsrc : fs.lookupFile (resolvePath fs.cwd fp) = some c)
    (hne : resolvePath fs.cwd fp ≠ (fs.cwd ++ cat.parts) ++ [fp.name])
    (hdst : fs.lookupFile ((fs.cwd ++ cat.parts) ++ [fp.name]) = none) :
    resolvePath fs.cwd cat = fs.cwd ++ cat.parts ∧
    (fs.cwd ++ cat.parts) ∈ (move_file hash tok fs fp cat).2.dirs ∧
    (move_file hash tok fs fp cat).1 = MoveResult.moved ∧
    (move_file hash tok fs fp cat).2.lookupFile
      ((fs.cwd ++ cat.parts) ++ [fp.name]) = some c ∧
    (move_file hash tok fs fp cat).2.lookupFile (resolvePath fs.cwd fp) = none := by
  obtain ⟨habs, hnil⟩ := EXTENSION_MAP_values_shape cat (lookupExt_mem_values _ _ _ hlk)
  have hres : resolvePath fs.cwd cat = fs.cwd ++ cat.parts := by
    simp [resolvePath, habs]
  have hne' : resolvePath fs.cwd fp ≠ resolvePath fs.cwd cat ++ [fp.name] := by
    rw [hres]
    exact hne
  have hdst' : fs.lookupFile (resolvePath fs.cwd cat ++ [fp.name]) = none := by
    rw [hres]
    exact hdst
  rw [move_file_moved_branch hash tok fs fp cat hne' hdst']
  refine ⟨hres, ?_, rfl, ?_, ?_⟩
  · rw [moveEntry_dirs]
    show fs.cwd ++ cat.parts ∈ (initsNE (resolvePath fs.cwd cat)).foldl insertDir fs.dirs
    apply mem_foldl_insertDir
    rw [hres]
    apply initsNE_self
    simp [hnil]
  · rw [← hres]
    exact moveEntry_lookup_dst _ _ _ c (by rw [mkdirP_lookupFile]; exact hsrc)
  · rw [← hres] at hne
    exact moveEntry_lookup_src _ _ _ c (by rw [mkdirP_lookupFile]; exact hsrc) hne

/-- Witness for the amended C3: with working directory `/h`, the file
`/h/sub/c.png` is classified to `img` and moved to `/h/img/c.png`, with
`/h/img` created. -/
theorem move_file_category_under_cwd_witness :
    resolvePath ["h"] ⟨false, ["img"]⟩ = ["h", "img"] ∧
    (["h"] ++ ["img"]) ∈ (move_file (fun c => c) "ab12cd"
      ⟨["h"], [(["h", "sub", "c.png"], "P")], []⟩
      ⟨false, ["sub", "c.png"]⟩ ⟨false, ["img"]⟩).2.dirs ∧
    (move_file (fun c => c) "ab12cd" ⟨["h"], [(["h", "sub", "c.png"], "P")], []⟩
      ⟨false, ["sub", "c.png"]⟩ ⟨false, ["img"]⟩).1 = MoveResult.moved ∧
    (move_file (fun c => c) "ab12cd" ⟨["h"], [(["h", "sub", "c.png"], "P")], []⟩
      ⟨false, ["sub", "c.png"]⟩ ⟨false, ["img"]⟩).2.lookupFile
      ((["h"] ++ ["img"]) ++ ["c.png"]) = some "P" ∧
    (move_file (fun c => c) "ab12cd" ⟨["h"], [(["h", "sub", "c.png"], "P")], []⟩
      ⟨false, ["sub", "c.png"]⟩ ⟨false, ["img"]⟩).2.lookupFile
      (resolvePath ["h"] ⟨false, ["sub", "c.png"]⟩) = none := by
  have h := move_file_category_under_cwd (fun c => c) "ab12cd"
    ⟨["h"], [(["h", "sub", "c.png"], "P")], []⟩
    ⟨false, ["sub", "c.png"]⟩ "" ⟨false, ["img"]⟩ "P"
    (by rfl) (by rfl) (by rfl) (by decide) (by rfl)
  exact ⟨h.1, h.2.1, h.2.2.1, h.2.2.2.1, h.2.2.2.2⟩

/-- C5 counterexample: a file with unknown useful extension is *not* left in
place.  With the working directory `/r` (also the walk root), the file
`/r/sub/x.foo` is classified to the `"."` category and then moved by
`move_file` out of its containing directory `sub` into `/r` itself. -/
theorem move_file_unknown_ext_counterexample :
    classifyFile ⟨false, ["sub", "x.foo"]⟩ "" = Disposition.moveTo ⟨false, []⟩ ∧
    (move_file (fun c => c) "ab12cd" ⟨["r"], [(["r", "sub", "x.foo"], "X")], []⟩
      ⟨false, ["sub", "x.foo"]⟩ ⟨false, []⟩).1 = MoveResult.moved ∧
    (move_file (fun c => c) "ab12cd" ⟨["r"], [(["r", "sub", "x.foo"], "X")], []⟩
      ⟨false, ["sub", "x.foo"]⟩ ⟨false, []⟩).2.lookupFile
      ["r", "sub", "x.foo"] = none ∧
    (move_file (fun c => c) "ab12cd" ⟨["r"], [(["r", "sub", "x.foo"], "X")], []⟩
      ⟨false, ["sub", "x.foo"]⟩ ⟨false, []⟩).2.lookupFile
      ["r", "x.foo"] = some "X" := by
  exact ⟨rfl, rfl, rfl, rfl⟩

/-- C5 amended: a file whose non-empty useful extension is not in the
category table is assigned the category `Path(".")`, which `move_file`
resolves against the process working directory: the file is moved to the
working directory, which leaves it in place only when it already resides
directly there. -/
theorem move_file_unknown_ext_to_cwd (hash : Content → String) (tok : String) (fs : FS)
    (fp : FPath) (metadata : String) (c : Content)
    (ha : lowerStr (suffixOf fp.name) ∉ ARCHIVE_EXTENSIONS)
    (hd : lowerStr (suffixOf fp.name) ∉ DELETE_FILETYPES)
    (hu : get_useful_extension fp.name ≠ "")
    (hm : lookupExt EXTENSION_MAP (get_useful_extension fp.name) = none)
    (hsrc : fs.lookupFile (resolvePath fs.cwd fp) = some c)
    (hne : resolvePath fs.cwd fp ≠ fs.cwd ++ [fp.name])
    (hdst : fs.lookupFile (fs.cwd ++ [fp.name]) = none) :
    classifyFile fp metadata = Disposition.moveTo ⟨false, []⟩ ∧
    (move_file hash tok fs fp ⟨false, []⟩).1 = MoveResult.moved ∧
    (move_file hash tok fs fp ⟨false, []⟩).2.lookupFile (fs.cwd ++ [fp.name]) = some c ∧
    (move_file hash tok fs fp ⟨false, []⟩).2.lookupFile (resolvePath fs.cwd fp) = none := by
  have hres : resolvePath fs.cwd (⟨false, []⟩ : FPath) = fs.cwd := by
    simp [resolvePath]
  have hclass : classifyFile fp metadata = Disposition.moveTo ⟨false, []⟩ := by
    simp only [classifyFile]
    rw [if_neg ha, if_neg hd, if_neg hu, hm]
    rfl
  have hne' : resolvePath fs.cwd fp ≠ resolvePath fs.cwd (⟨false, []⟩ : FPath) ++ [fp.name] := by
    rw [hres]
    exact hne
  have hdst' : fs.lookupFile (resolvePath fs.cwd (⟨false, []⟩ : FPath) ++ [fp.name]) = none := by
    rw [hres]
    exact hdst
  rw [move_file_moved_branch hash tok fs fp ⟨false, []⟩ hne' hdst', hres]
  refine ⟨hclass, rfl, ?_, ?_⟩
  · exact moveEntry_lookup_dst _ _ _ c (by rw [mkdirP_lookupFile]; exact hsrc)
  · exact moveEntry_lookup_src _ _ _ c (by rw [mkdirP_lookupFile]; exact hsrc) hne

/-- Witness for the amended C5: with working directory `/r`, the unknown
extension file `/r/sub/y.abc` is moved to `/r/y.abc`. -/
theorem move_file_unknown_ext_to_cwd_witness :
    classifyFile ⟨false, ["sub", "y.abc"]⟩ "" = Disposition.moveTo ⟨false, []⟩ ∧
    (move_file (fun c => c) "ab12cd" ⟨["r"], [(["r", "sub", "y.abc"], "Q")], []⟩
      ⟨false, ["sub", "y.abc"]⟩ ⟨false, []⟩).1 = MoveResult.moved ∧
    (move_file (fun c => c) "ab12cd" ⟨["r"], [(["r", "sub", "y.abc"], "Q")], []⟩
      ⟨false, ["sub", "y.abc"]⟩ ⟨false, []⟩).2.lookupFile
      (["r"] ++ ["y.abc"]) = some "Q" ∧
    (move_file (fun c => c) "ab12cd" ⟨["r"], [(["r", "sub", "y.abc"], "Q")], []⟩
      ⟨false, ["sub", "y.abc"]⟩ ⟨false, []⟩).2.lookupFile
      (resolvePath ["r"] ⟨false, ["sub", "y.abc"]⟩) = none := by
  exact move_file_unknown_ext_to_cwd (fun c => c) "ab12cd"
    ⟨["r"], [(["r", "sub", "y.abc"], "Q")], []⟩ ⟨false, ["sub", "y.abc"]⟩ "" "Q"
    (by decide) (by decide) (by decide) (by rfl) (by rfl) (by decide) (by rfl)

theorem resolvePath_join_ne_nil (cwd : List String) (p : FPath) (n : String) :
    resolvePath cwd (p.join n) ≠ [] := by
  rw [resolvePath_join]
  simp

/-- C7: when the selected extraction backend fails with any error, the
archive file's bytes (indeed the whole file table) are unchanged, the
failure is logged with the archive path and the underlying error, and
`extract_archive` returns normally (it is a total function whose failure
branch yields a state, so the walk can continue). -/
theorem extract_archive_failure_preserves (tok : String)
    (backends : Bool → Except String (List (String × Content))) (e : String)
    (fs : FS) (archive_path target_dir_base : FPath)
    (hfail : backends (usesSevenz archive_path.name) = Except.error e) :
    (extract_archive tok backends fs archive_path target_dir_base).1.files = fs.files ∧
    (extract_archive tok backends fs archive_path target_dir_base).2 =
      [LogMsg.processing archive_path, LogMsg.failed archive_path e] := by
  simp only [extract_archive]
  rw [hfail]
  exact ⟨rfl, rfl⟩

/-- Witness for C7 at a concrete state: extracting `/r/x.zip` with a backend
that raises keeps the file table intact and logs the failure. -/
theorem extract_archive_failure_preserves_witness :
    (extract_archive "ab12cd" (fun _ => Except.error "boom")
      ⟨[], [(["r", "x.zip"], "Z")], []⟩ ⟨true, ["r", "x.zip"]⟩ ⟨true, ["r", "x"]⟩).1.files =
      [(["r", "x.zip"], "Z")] ∧
    (extract_archive "ab12cd" (fun _ => Except.error "boom")
      ⟨[], [(["r", "x.zip"], "Z")], []⟩ ⟨true, ["r", "x.zip"]⟩ ⟨true, ["r", "x"]⟩).2 =
      [LogMsg.processing ⟨true, ["r", "x.zip"]⟩,
        LogMsg.failed ⟨true, ["r", "x.zip"]⟩ "boom"] := by
  exact extract_archive_failure_preserves "ab12cd" (fun _ => Except.error "boom") "boom"
    ⟨[], [(["r", "x.zip"], "Z")], []⟩ ⟨true, ["r", "x.zip"]⟩ ⟨true, ["r", "x"]⟩ rfl

/-- C10: `extract_archive` creates the randomly-suffixed destination
directory before invoking the backend, so on backend failure the freshly
created directory remains on disk (the failure branch does not undo the
mkdir) while the archive itself is preserved. -/
theorem extract_archive_failure_leaves_dir (tok : String)
    (backends : Bool → Except String (List (String × Content))) (e : String)
    (fs : FS) (archive_path target_dir_base : FPath) (a : Content)
    (hfail : backends (usesSevenz archive_path.name) = Except.error e)
    (harch : fs.lookupFile (resolvePath fs.cwd archive_path) = some a) :
    resolvePath fs.cwd (target_dir_base.parent.join (target_dir_base.name ++ "_" ++ tok)) ∈
      (extract_archive tok backends fs archive_path target_dir_base).1.dirs ∧
    (extract_archive tok backends fs archive_path target_dir_base).1.lookupFile
      (resolvePath fs.cwd archive_path) = some a := by
  simp only [extract_archive]
  rw [hfail]
  constructor
  · apply mem_foldl_insertDir
    apply initsNE_self
    exact resolvePath_join_ne_nil fs.cwd target_dir_base.parent
      (target_dir_base.name ++ "_" ++ tok)
  · exact harch

/-- Witness for C10 at a concrete state: after a failed extraction of
`/r/x.zip`, the fresh directory `/r/x_ab12cd` exists and the archive is
still present. -/
theorem extract_archive_failure_leaves_dir_witness :
    resolvePath [] (FPath.join (FPath.parent ⟨true, ["r", "x"]⟩)
      (FPath.name ⟨true, ["r", "x"]⟩ ++ "_" ++ "ab12cd")) ∈
      (extract_archive "ab12cd" (fun _ => Except.error "boom")
        ⟨[], [(["r", "x.zip"], "Z")], []⟩ ⟨true, ["r", "x.zip"]⟩ ⟨true, ["r", "x"]⟩).1.dirs ∧
    (extract_archive "ab12cd" (fun _ => Except.error "boom")
      ⟨[], [(["r", "x.zip"], "Z")], []⟩ ⟨true, ["r", "x.zip"]⟩ ⟨true, ["r", "x"]⟩).1.lookupFile
      (resolvePath [] ⟨true, ["r", "x.zip"]⟩) = some "Z" := by
  exact extract_archive_failure_leaves_dir "ab12cd" (fun _ => Except.error "boom") "boom"
    ⟨[], [(["r", "x.zip"], "Z")], []⟩ ⟨true, ["r", "x.zip"]⟩ ⟨true, ["r", "x"]⟩ "Z" rfl rfl

/-! ### Case-insensitivity of classification (C9) -/

theorem lowerStr_data_length (s : String) : (lowerStr s).data.length = s.data.length := by
  simp [lowerStr]

theorem FPath.name_mk_concat (a : Bool) (pre : List String) (n : String) :
    (FPath.mk a (pre ++ [n])).name = n :=
  FPath.name_join ⟨a, pre⟩ n

theorem FPath.parent_mk_concat (a : Bool) (pre : List String) (n : String) :
    (FPath.mk a (pre ++ [n])).parent = ⟨a, pre⟩ := by
  simp [FPath.parent]

theorem lower_dropDot_congr (s₁ s₂ : String) (h : lowerStr s₁ = lowerStr s₂) :
    lowerStr (String.mk (s₁.data.drop 1)) = lowerStr (String.mk (s₂.data.drop 1))  := by
  have hdata : s₁.data.map Char.toLower = s₂.data.map Char.toLower := by
    have := congrArg String.data h
    simpa [lowerStr] using this
  simp only [lowerStr]
  have : (s₁.data.drop 1).map Char.toLower = (s₂.data.drop 1).map Char.toLower := by
    rw [List.map_drop, List.map_drop, hdata]
  rw [this]

theorem useful_ext_congr (n₁ n₂ : String)
    (h1 : stemOf n₁ = stemOf n₂)
    (h2 : lowerStr (suffixOf n₁) = lowerStr (suffixOf n₂)) :
    get_useful_extension n₁ = get_useful_extension n₂ := by
  have hstem : (stemOf n₁).data.length = (stemOf n₂).data.length :=
    congrArg (fun s : String => s.data.length) h1
  have hsuff : (suffixOf n₁).data.length = (suffixOf n₂).data.length := by
    rw [← lowerStr_data_length (suffixOf n₁), ← lowerStr_data_length (suffixOf n₂), h2]
  have hlen : n₁.data.length = n₂.data.length := by
    have e1 := stem_add_suffix_length n₁
    have e2 := stem_add_suffix_length n₂
    omega
  simp only [get_useful_extension]
  rw [hlen]
  cases hf : n₂.data.length with
  | zero =>
    simp only [strip_useless]
    exact lower_dropDot_congr _ _ h2
  | succ m =>
    simp only [strip_useless]
    by_cases hmem : lowerStr (suffixOf n₂) ∈ USELESS_EXTENSIONS
    · rw [if_pos (h2 ▸ hmem), if_pos hmem, h1]
    · rw [if_neg (h2 ▸ hmem), if_neg hmem]
      exact lower_dropDot_congr _ _ h2

/-- C9 counterexample: extension matching is *not* case-insensitive
throughout.  The names `a.7z` and `a.7Z` differ only in the case of their
suffix and are both classified as archives, but the extraction backend
selection (`name.endswith` over `SEVENZ_EXTENSIONS`) is case-sensitive:
`a.7z` is routed to the 7z backend while `a.7Z` is routed to the general
backend. -/
theorem classify_case_counterexample :
    stemOf "a.7Z" = stemOf "a.7z" ∧
    lowerStr (suffixOf "a.7Z") = lowerStr (suffixOf "a.7z") ∧
    classifyFile ⟨false, ["a.7z"]⟩ "" = Disposition.extract ⟨false, ["a"]⟩ ∧
    classifyFile ⟨false, ["a.7Z"]⟩ "" = Disposition.extract ⟨false, ["a"]⟩ ∧
    usesSevenz "a.7z" = true ∧
    usesSevenz "a.7Z" = false := by
  exact ⟨rfl, rfl, rfl, rfl, rfl, rfl⟩

/-- C9 amended: the classification itself (archive vs delete vs
useless-suffix stripping vs category lookup vs sniffing fallback) is
case-insensitive in the file's suffix: two names with the same stem whose
suffixes agree up to letter case classify identically.  Only the archive
backend selection (see the counterexample) is case-sensitive. -/
theorem classify_case_invariant (a : Bool) (pre : List String) (n₁ n₂ metadata : String)
    (h1 : stemOf n₁ = stemOf n₂)
    (h2 : lowerStr (suffixOf n₁) = lowerStr (suffixOf n₂)) :
    classifyFile ⟨a, pre ++ [n₁]⟩ metadata = classifyFile ⟨a, pre ++ [n₂]⟩ metadata := by
  have hu := useful_ext_congr n₁ n₂ h1 h2
  simp only [classifyFile, FPath.name_mk_concat, FPath.parent_mk_concat, hu, h2, h1]

/-- Witness for the amended C9: `b.PNG` and `b.png` classify identically. -/
theorem classify_case_invariant_witness :
    classifyFile ⟨false, ["b.PNG"]⟩ "" = classifyFile ⟨false, ["b.png"]⟩ "" := by
  exact classify_case_invariant false [] "b.PNG" "b.png" "" rfl rfl

/-! ### The budgeted tree walker (C2, C6)

`process_directory` (lines 201-251) is modelled at the traversal level over a
snapshot of the directory tree.  `os.walk(directory, topdown=True)` yields
each directory's files and subdirectories; the loop filters blacklisted
subdirectories out of the descent list (line 209), then runs the per-file
classify-and-dispatch body (lines 211-246) with the step counter: `steps` is
incremented once per file and the whole walk returns the moment it exceeds
`max_steps` (lines 212-214), before the file is processed.  The model records
the ordered trace of files for which the dispatch body executes, the final
counter, and whether the walk aborted early (in which case the trailing
empty-directory pruning of lines 248-251 is also skipped). -/

/-- A snapshot of a directory tree: regular file names plus named subtrees,
in listing order. -/
inductive DirTree where
  | node (files : List String) (subdirs : List (String × DirTree))
deriving Repr

/-- The per-directory file loop of `process_directory` (lines 211-246):
counter increment, budget circuit breaker, then dispatch (recorded in the
trace).  Returns (counter, aborted, trace). -/
def procFiles (max_steps : Nat) (root : FPath) : List String → Nat → Nat × Bool × List FPath
  | [], steps => (steps, false, [])
  | n :: ns, steps =>
    let steps1 := steps + 1
    if steps1 > max_steps then (steps1, true, [])
    else
      let r := procFiles max_steps root ns steps1
      (r.1, r.2.1, root.join n :: r.2.2)

mutual
/-- Walk one directory: files first, then the non-blacklisted subdirectories
in order, threading the counter and propagating an early return. -/
def walkT (max_steps : Nat) : FPath → DirTree → Nat → Nat × Bool × List FPath
  | root, DirTree.node fls sds, steps =>
    let p := procFiles max_steps root fls steps
    if p.2.1 then p
    else
      let q := walkSubs max_steps root sds p.1
      (q.1, q.2.1, p.2.2 ++ q.2.2)
/-- Walk a directory's subdirectory list, skipping any `root / d` found in
`BLACKLISTED_DIRECTORIES` (line 209). -/
def walkSubs (max_steps : Nat) : FPath → List (String × DirTree) → Nat → Nat × Bool × List FPath
  | _, [], steps => (steps, false, [])
  | root, (d, t) :: rest, steps =>
    if root.join d ∈ BLACKLISTED_DIRECTORIES then walkSubs max_steps root rest steps
    else
      let p := walkT max_steps (root.join d) t steps
      if p.2.1 then p
      else
        let q := walkSubs max_steps root rest p.1
        (q.1, q.2.1, p.2.2 ++ q.2.2)
end

mutual
/-- The files the traversal covers, in walk order, with no budget: the same
pruned walk as `walkT` with an unlimited step budget. -/
def visitT : FPath → DirTree → List FPath
  | root, DirTree.node fls sds => fls.map (root.join ·) ++ visitSubs root sds
def visitSubs : FPath → List (String × DirTree) → List FPath
  | _, [] => []
  | root, (d, t) :: rest =>
    if root.join d ∈ BLACKLISTED_DIRECTORIES then visitSubs root rest
    else visitT (root.join d) t ++ visitSubs root rest
end

/-- `process_directory(directory, max_steps)` at the traversal level:
walk the snapshot from the root with the counter starting at 0. -/
def process_directory (max_steps : Nat) (directory : FPath) (t : DirTree) :
    Nat × Bool × List FPath :=
  walkT max_steps directory t 0

theorem procFiles_run (k : Nat) (root : FPath) :
    ∀ (fls : List String) (steps : Nat), steps ≤ k →
    procFiles k root fls steps =
      (min (steps + fls.length) (k + 1), decide (k - steps < fls.length),
        (fls.map (root.join ·)).take (k - steps)) := by
  intro fls
  induction fls with
  | nil =>
    intro steps hs
    simp only [procFiles, List.length_nil, Nat.add_zero, List.map_nil, List.take_nil]
    refine congrArg₂ Prod.mk ?_ (congrArg₂ Prod.mk ?_ rfl)
    · omega
    · simp
  | cons n ns ih =>
    intro steps hs
    simp only [procFiles, List.length_cons, List.map_cons]
    by_cases hb : steps + 1 > k
    · rw [if_pos hb]
      refine congrArg₂ Prod.mk ?_ (congrArg₂ Prod.mk ?_ ?_)
      · omega
      · have h1 : k - steps < ns.length + 1 := by omega
        simp [h1]
      · have h0 : k - steps = 0 := by omega
        rw [h0, List.take_zero]
    · rw [if_neg hb, ih (steps + 1) (by omega)]
      refine congrArg₂ Prod.mk ?_ (congrArg₂ Prod.mk ?_ ?_)
      · omega
      · rw [decide_eq_decide]
        omega
      · have h1 : k - steps = (k - (steps + 1)) + 1 := by omega
        rw [h1, List.take_succ_cons]

mutual
theorem walkT_run (k : Nat) (root : FPath) (t : DirTree) (steps : Nat) (hs : steps ≤ k) :
    walkT k root t steps =
      (min (steps + (visitT root t).length) (k + 1),
        decide (k - steps < (visitT root t).length),
        (visitT root t).take (k - steps)) := by
  cases t with
  | node fls sds =>
    simp only [walkT, visitT]
    rw [procFiles_run k root fls steps hs]
    split
    · next habort =>
      have hb : k - steps < fls.length := of_decide_eq_true habort
      refine congrArg₂ Prod.mk ?_ (congrArg₂ Prod.mk ?_ ?_)
      · simp only [List.length_append, List.length_map]
        omega
      · rw [decide_eq_decide]
        simp only [List.length_append, List.length_map]
        omega
      · rw [List.take_append_eq_append_take]
        have h0 : k - steps - (fls.map (root.join ·)).length = 0 := by
          simp only [List.length_map]
          omega
        rw [h0, List.take_zero, List.append_nil]
    · next hnoabort =>
      have hb : ¬(k - steps < fls.length) := fun hp => hnoabort (decide_eq_true hp)
      have hp : min (steps + fls.length) (k + 1) = steps + fls.length := by omega
      rw [hp, walkSubs_run k root sds (steps + fls.length) (by omega)]
      refine congrArg₂ Prod.mk ?_ (congrArg₂ Prod.mk ?_ ?_)
      · simp only [List.length_append, List.length_map]
        omega
      · rw [decide_eq_decide]
        simp only [List.length_append, List.length_map]
        omega
      · rw [List.take_append_eq_append_take]
        have h1 : (fls.map (root.join ·)).take (k - steps) = fls.map (root.join ·) := by
          apply List.take_of_length_le
          simp only [List.length_map]
          omega
        have h2 : k - (steps + fls.length) = k - steps - (fls.map (root.join ·)).length := by
          simp only [List.length_map]
          omega
        rw [h1, h2]
termination_by sizeOf t

theorem walkSubs_run (k : Nat) (root : FPath) (l : List (String × DirTree)) (steps : Nat)
    (hs : steps ≤ k) :
    walkSubs k root l steps =
      (min (steps + (visitSubs root l).length) (k + 1),
        decide (k - steps < (visitSubs root l).length),
        (visitSubs root l).take (k - steps)) := by
  cases l with
  | nil =>
    simp only [walkSubs, visitSubs, List.length_nil, Nat.add_zero, List.take_nil]
    refine congrArg₂ Prod.mk ?_ (congrArg₂ Prod.mk ?_ rfl)
    · omega
    · simp
  | cons dt rest =>
    obtain ⟨d, t⟩ := dt
    by_cases hbl : root.join d ∈ BLACKLISTED_DIRECTORIES
    · have hv : visitSubs root ((d, t) :: rest) = visitSubs root rest := by
        simp only [visitSubs]
        rw [if_pos hbl]
      have hw : walkSubs k root ((d, t) :: rest) steps = walkSubs k root rest steps := by
        simp only [walkSubs]
        rw [if_pos hbl]
      rw [hw, hv, walkSubs_run k root rest steps hs]
    · have hv : visitSubs root ((d, t) :: rest) =
          visitT (root.join d) t ++ visitSubs root rest := by
        simp only [visitSubs]
        rw [if_neg hbl]
      have hw : walkSubs k root ((d, t) :: rest) steps =
          (if (walkT k (root.join d) t steps).2.1 then walkT k (root.join d) t steps
           else ((walkSubs k root rest (walkT k (root.join d) t steps).1).1,
             (walkSubs k root rest (walkT k (root.join d) t steps).1).2.1,
             (walkT k (root.join d) t steps).2.2 ++
               (walkSubs k root rest (walkT k (root.join d) t steps).1).2.2)) := by
        simp only [walkSubs]
        rw [if_neg hbl]
      rw [hw, hv, walkT_run k (root.join d) t steps hs]
      split
      · next habort =>
        have hb : k - steps < (visitT (root.join d) t).length := of_decide_eq_true habort
        refine congrArg₂ Prod.mk ?_ (congrArg₂ Prod.mk ?_ ?_)
        · simp only [List.length_append]
          omega
        · rw [decide_eq_decide]
          simp only [List.length_append]
          omega
        · rw [List.take_append_eq_append_take]
          have h0 : k - steps - (visitT (root.join d) t).length = 0 := by omega
          rw [h0, List.take_zero, List.append_nil]
      · next hnoabort =>
        have hb : ¬(k - steps < (visitT (root.join d) t).length) :=
          fun hp => hnoabort (decide_eq_true hp)
        have hp : min (steps + (visitT (root.join d) t).length) (k + 1) =
            steps + (visitT (root.join d) t).length := by omega
        rw [hp, walkSubs_run k root rest (steps + (visitT (root.join d) t).length) (by omega)]
        refine congrArg₂ Prod.mk ?_ (congrArg₂ Prod.mk ?_ ?_)
        · simp only [List.length_append]
          omega
        · rw [decide_eq_decide]
          simp only [List.length_append]
          omega
        · rw [List.take_append_eq_append_take]
          have h1 : (visitT (root.join d) t).take (k - steps) = visitT (root.join d) t :=
            List.take_of_length_le (by omega)
          have h2 : k - (steps + (visitT (root.join d) t).length) =
              k - steps - (visitT (root.join d) t).length := by omega
          rw [h1, h2]
termination_by sizeOf l
end

/-- C2: budget monotonicity.  Over the files the traversal covers (in walk
order, `visitT`), the walker dispatches exactly the first `min k N` of the
`N` covered files and aborts exactly when `k < N`: for `k < N` it processes
exactly `k` files, returning the moment the counter would exceed the budget
and leaving the rest of the tree untouched (no dispatch is recorded for
them); for `k ≥ N` it processes all `N`. -/
theorem process_directory_budget (k : Nat) (directory : FPath) (t : DirTree) :
    (process_directory k directory t).2.2 = (visitT directory t).take k ∧
    (process_directory k directory t).2.2.length = min k (visitT directory t).length ∧
    (process_directory k directory t).2.1 = decide ((visitT directory t).length > k) := by
  have h := walkT_run k directory t 0 (Nat.zero_le k)
  unfold process_directory
  refine ⟨?_, ?_, ?_⟩
  · rw [h]
    simp only [Nat.sub_zero]
  · rw [h]
    simp only [Nat.sub_zero, List.length_take]
  · rw [h]
    simp only [Nat.sub_zero]

mutual
theorem visitT_ok (t : DirTree) (root : FPath) (habs : root.abs = false)
    (hroot : root.parts = [] ∨ ∃ c cs, root.parts = c :: cs ∧
      FPath.mk false [c] ∉ BLACKLISTED_DIRECTORIES) :
    ∀ p ∈ visitT root t, ∀ c cs, p.parts = c :: cs → cs ≠ [] →
      FPath.mk false [c] ∉ BLACKLISTED_DIRECTORIES := by
  cases t with
  | node fls sds =>
    intro p hp c cs hparts hcs
    rw [visitT] at hp
    rcases List.mem_append.mp hp with hp | hp
    · rcases List.mem_map.mp hp with ⟨n, _, rfl⟩
      rcases hroot with h0 | ⟨c0, cs0, h0, hbl⟩
      · exfalso
        apply hcs
        have hpp : (root.join n).parts = [n] := by
          simp [FPath.join, h0]
        rw [hpp] at hparts
        exact (List.cons.injEq n [] c cs ▸ hparts).2.symm
      · have hpp : (root.join n).parts = c0 :: (cs0 ++ [n]) := by
          simp [FPath.join, h0]
        rw [hpp] at hparts
        have hc : c0 = c := (List.cons.injEq c0 (cs0 ++ [n]) c cs ▸ hparts).1
        rw [← hc]
        exact hbl
    · exact visitSubs_ok sds root habs hroot p hp c cs hparts hcs
termination_by sizeOf t

theorem visitSubs_ok (l : List (String × DirTree)) (root : FPath) (habs : root.abs = false)
    (hroot : root.parts = [] ∨ ∃ c cs, root.parts = c :: cs ∧
      FPath.mk false [c] ∉ BLACKLISTED_DIRECTORIES) :
    ∀ p ∈ visitSubs root l, ∀ c cs, p.parts = c :: cs → cs ≠ [] →
      FPath.mk false [c] ∉ BLACKLISTED_DIRECTORIES := by
  cases l with
  | nil =>
    intro p hp
    rw [visitSubs] at hp
    cases hp
  | cons dt rest =>
    obtain ⟨d, t⟩ := dt
    intro p hp c cs hparts hcs
    by_cases hbl : root.join d ∈ BLACKLISTED_DIRECTORIES
    · have hv : visitSubs root ((d, t) :: rest) = visitSubs root rest := by
        simp only [visitSubs]
        rw [if_pos hbl]
      rw [hv] at hp
      exact visitSubs_ok rest root habs hroot p hp c cs hparts hcs
    · have hv : visitSubs root ((d, t) :: rest) =
          visitT (root.join d) t ++ visitSubs root rest := by
        simp only [visitSubs]
        rw [if_neg hbl]
      rw [hv] at hp
      rcases List.mem_append.mp hp with hp | hp
      · have habs' : (root.join d).abs = false := habs
        have hroot' : (root.join d).parts = [] ∨ ∃ c cs, (root.join d).parts = c :: cs ∧
            FPath.mk false [c] ∉ BLACKLISTED_DIRECTORIES := by
          rcases hroot with h0 | ⟨c0, cs0, h0, hbl0⟩
          · right
            refine ⟨d, [], by simp [FPath.join, h0], ?_⟩
            have hj : root.join d = FPath.mk false [d] := by
              obtain ⟨a, parts⟩ := root
              simp only [FPath.join]
              simp only [FPath.abs] at habs
              simp only [FPath.parts] at h0
              rw [habs, h0]
              rfl
            rw [← hj]
            exact hbl
          · right
            exact ⟨c0, cs0 ++ [d], by simp [FPath.join, h0], hbl0⟩
        exact visitT_ok t (root.join d) habs' hroot' p hp c cs hparts hcs
      · exact visitSubs_ok rest root habs hroot p hp c cs hparts hcs
termination_by sizeOf l
end

/-- C6 counterexample: the category-directory protection is a literal path
comparison against the relative blacklist values, so for any walk root other
than the current directory `Path(".")` it does not fire.  With walk root
`work`, the walker descends into the category directory `work/scm` and the
classify-and-dispatch body executes for the file `work/scm/a.scm` inside it,
refuting the claim for arbitrary walk roots. -/
theorem walk_descends_into_category_dir_cex :
    FPath.mk false ["scm"] ∈ BLACKLISTED_DIRECTORIES ∧
    (process_directory 10 ⟨false, ["work"]⟩
      (DirTree.node [] [("scm", DirTree.node ["a.scm"] [])])).2.2 =
      [⟨false, ["work", "scm", "a.scm"]⟩] := by
  exact ⟨by decide, rfl⟩

/-- C6 amended: when the walk root is the current directory `Path(".")` —
the configuration in which the relative blacklist values line up with the
walker's `root / d` comparison — the walker never descends into a top-level
category directory: every file it dispatches that is not directly at the
root has a first path component that is not a blacklisted category name, so
files previously moved into a category directory are never reclassified. -/
theorem walk_skips_category_dirs (k : Nat) (t : DirTree) (p : FPath)
    (hp : p ∈ (process_directory k ⟨false, []⟩ t).2.2)
    (c : String) (cs : List String) (hparts : p.parts = c :: cs) (hcs : cs ≠ []) :
    FPath.mk false [c] ∉ BLACKLISTED_DIRECTORIES := by
  have h := walkT_run k ⟨false, []⟩ t 0 (Nat.zero_le k)
  unfold process_directory at hp
  rw [h] at hp
  have hp2 : p ∈ visitT ⟨false, []⟩ t := List.take_subset _ _ hp
  exact visitT_ok t ⟨false, []⟩ rfl (Or.inl rfl) p hp2 c cs hparts hcs

/-- Witness for the amended C6: the walk from `.` over a tree with a
non-category subdirectory `other` dispatches `other/x.png`, whence `other`
is not blacklisted. -/
theorem walk_skips_category_dirs_witness :
    FPath.mk false ["other"] ∉ BLACKLISTED_DIRECTORIES := by
  exact walk_skips_category_dirs 10
    (DirTree.node [] [("other", DirTree.node ["x.png"] [])])
    ⟨false, ["other", "x.png"]⟩ (by decide) "other" ["x.png"] rfl (by decide)
